import Mathlib

/-!
Verification of the tinywasm/fmt text-conversion and formatting engine.

The development shallowly embeds the package's data model and operations:
the language selector (`language.go`), the numeric conversion routines,
the format-template interpreter, the case transform pipeline and the
word-translation dictionary.  Components whose Go sources are not part of
the available tree are modelled from the specification document and are
marked as such in their doc comments.
-/

namespace Tinyfmt

/-! ## Character helpers and case mapping

Modelled from the spec: case folding with an ASCII fast path and a
Unicode-aware fallback for accented Latin-1 characters (á→a, é→e, ...),
as described in the Case/Unicode Transform component (§4.4). -/

/-- Whitespace predicate used by word-boundary detection. -/
def isWS (c : Char) : Bool :=
  c = ' ' || c = '\t' || c = '\n' || c = '\r'

/-- Pairs of (uppercase, lowercase) letters: ASCII A–Z plus the accented
Latin-1 block À–Þ (skipping the multiplication sign ×). -/
def casePairs : List (Char × Char) :=
  ((List.range 26).map (fun i => (Char.ofNat (65 + i), Char.ofNat (97 + i)))) ++
  ((List.range 31).filterMap (fun i =>
    if 192 + i = 215 then none
    else some (Char.ofNat (192 + i), Char.ofNat (224 + i))))

/-- Lowercase a single character (identity outside the case table). -/
def lowChar (c : Char) : Char := ((casePairs.lookup c).getD c)

/-- Uppercase a single character (identity outside the case table). -/
def upChar (c : Char) : Char := (((casePairs.map Prod.swap).lookup c).getD c)

/-- Lowercase every character of a character list. -/
def lowerChars (l : List Char) : List Char := l.map lowChar

/-- Lowercase every character of a string. -/
def lowerStr (s : String) : String := ⟨lowerChars s.data⟩

/-! ## Language selector

Embedded from `language.go`: the `lang` enumeration, its string form, the
locale-string parser and the `OutLang` accessor. -/

/-- Language enumeration for supported languages (source: `language.go`). -/
inductive lang where
  | EN | ES | ZH | HI | AR | PT | FR | DE | RU
deriving DecidableEq, Repr

open lang in
/-- String form of a language value (source: `lang.String`). -/
def langString : lang → String
  | EN => "EN"
  | ES => "ES"
  | ZH => "ZH"
  | HI => "HI"
  | AR => "AR"
  | PT => "PT"
  | FR => "FR"
  | DE => "DE"
  | RU => "RU"

/-- Split a character list on a separator character, Go `strings.Split`
style: the result is never empty and splitting the empty input yields one
empty segment.  Modelled from the spec: the internal `splitStr` helper of
the conversion object, of which `langParser` only uses the first segment. -/
def splitChars (sep : Char) : List Char → List (List Char)
  | [] => [[]]
  | c :: rest =>
    let r := splitChars sep rest
    if c = sep then [] :: r else (c :: r.headD []) :: r.tail

/-- String-level split used by the language parser. -/
def splitStr (s : String) (sep : Char) : List String :=
  (splitChars sep s.data).map (fun l => ⟨l⟩)

open lang in
/-- Map a free-form language code to a `lang` value (source:
`Conv.mapLangCode`): lowercase the code, then match it against the nine
recognized two-letter codes, with EN as the fallback. -/
def mapLangCode (strVal : String) : lang :=
  let code := lowerStr strVal
  if code = "en" then EN
  else if code = "es" then ES
  else if code = "zh" then ZH
  else if code = "hi" then HI
  else if code = "ar" then AR
  else if code = "pt" then PT
  else if code = "fr" then FR
  else if code = "de" then DE
  else if code = "ru" then RU
  else EN

/-- Locale-string parser (source: `Conv.langParser`): for each candidate
string, drop the encoding suffix (after `.`), the locale suffix (after
`_`) and the region suffix (after `-`), then map the remaining code;
empty candidates and empty remainders are skipped, and EN is the fallback
when no candidate yields a code. -/
def langParser : List String → lang
  | [] => lang.EN
  | langStr :: rest =>
    if langStr = "" then langParser rest
    else
      let code := ((splitStr langStr '.').headD "")
      let code := ((splitStr code '_').headD "")
      let code := ((splitStr code '-').headD "")
      if code = "" then langParser rest
      else mapLangCode code

/-- Argument forms accepted by the variadic `OutLang`: a `lang` value, a
string, or any other value. -/
inductive OutArg where
  | langVal (l : lang)
  | strVal (s : String)
  | otherVal
deriving DecidableEq, Repr

/-- State-passing embedding of `OutLang` (source: `language.go`).  The
first component of the result is the new process-wide default language,
the second is the returned code string.  `sysLang` stands for the host
language detected by `getSystemLang` (platform code outside this tree).
With no arguments the system language is detected, stored and returned;
a `lang` argument is assigned directly; a string argument is parsed with
`langParser`; any other argument leaves the state unchanged and returns
the current code. -/
def OutLang (defLang : lang) (sysLang : lang) : List OutArg → lang × String
  | [] => (sysLang, langString sysLang)
  | v :: _ =>
    match v with
    | .langVal nl => (nl, langString nl)
    | .strVal s =>
      let nl := langParser [s]
      (nl, langString nl)
    | .otherVal => (defLang, langString defLang)

/-- Spec-side table of recognized language codes, written from the spec's
words for the refinement comparison with `mapLangCode`. -/
def recognizedCodes : List (String × lang) :=
  [("en", lang.EN), ("es", lang.ES), ("zh", lang.ZH), ("hi", lang.HI),
   ("ar", lang.AR), ("pt", lang.PT), ("fr", lang.FR), ("de", lang.DE),
   ("ru", lang.RU)]

/-- Spec-side description of locale-string resolution (§4.5): strip the
part after `.`, then after `_`, then after `-`, lowercase the remainder,
and look it up among the recognized codes, defaulting to EN. -/
def specLangResolve (s : String) : lang :=
  let r := (s.data.takeWhile (fun c => c ≠ '.')).takeWhile (fun c => c ≠ '_')
  let r := r.takeWhile (fun c => c ≠ '-')
  ((recognizedCodes.lookup (lowerStr ⟨r⟩)).getD lang.EN)

/-! ## Numeric conversion: integer ⇄ text

Modelled from the spec: standard decimal/hex/octal/binary radix
conversion (§4.2), and text→integer parsing that fails unless the whole
input parses. -/

/-- Character for one digit value (0–9 then a–f). -/
def digitChar (d : Nat) : Char :=
  if d < 10 then Char.ofNat (48 + d) else Char.ofNat (87 + d)

/-- Numeric value of one digit character, if any. -/
def digitVal (c : Char) : Option Nat :=
  if '0' ≤ c ∧ c ≤ '9' then some (c.toNat - 48)
  else if 'a' ≤ c ∧ c ≤ 'f' then some (c.toNat - 87)
  else none

/-- Digit characters of a positive number, least significant first.  The
fuel argument bounds the recursion: the value shrinks at every division
step, so fuel equal to the starting value is enough. -/
def natDigitsRev (r : Nat) : Nat → Nat → List Char
  | 0, _ => []
  | fuel + 1, n =>
    if n = 0 then [] else digitChar (n % r) :: natDigitsRev r fuel (n / r)

/-- Digits of a natural number at radix `r`, most significant first. -/
def natToTextL (r : Nat) (n : Nat) : List Char :=
  if n = 0 then ['0'] else (natDigitsRev r n n).reverse

/-- Integer→text conversion at radix `r` (sign followed by digits). -/
def intToText (r : Nat) (n : Int) : String :=
  if n < 0 then ⟨'-' :: natToTextL r n.natAbs⟩ else ⟨natToTextL r n.natAbs⟩

/-- One accumulation step of radix parsing. -/
def parseStep (r : Nat) (acc : Option Nat) (c : Char) : Option Nat :=
  acc.bind (fun a => (digitVal c).bind (fun d =>
    if d < r then some (a * r + d) else none))

/-- Parse a non-empty digit list at radix `r`; trailing non-digit
characters are not tolerated (the fold fails on them). -/
def parseNatL (r : Nat) (l : List Char) : Option Nat :=
  if l = [] then none else l.foldl (parseStep r) (some 0)

/-- Text→integer conversion at radix `r`: an optional leading minus sign
followed by digits that must consume the whole input. -/
def parseInt (r : Nat) (s : String) : Option Int :=
  if s.data.headD ' ' = '-' then (parseNatL r s.data.tail).map (fun n => -(n : Int))
  else (parseNatL r s.data).map (fun n => (n : Int))

/-! ## Numeric conversion: float rounding

Modelled from the spec: the conversion context holds a float; `Round(n,
roundDown)` rounds it to `n` fractional digits, by round-half-up with a
ceiling-biased tie-break by default, or by truncating at the nth digit
when `roundDown` is set (§4.2).  The held value is embedded exactly as a
decimal mantissa/scale pair `m / 10^e`. -/

/-- Decimal value held by the conversion context: `m / 10 ^ e`. -/
structure DecVal where
  m : Int
  e : Nat
deriving DecidableEq, Repr

/-- Mantissa of the value rounded to `n` fractional digits.  When the
value already has at most `n` digits it is rescaled exactly; otherwise
the excess digits are dropped by truncation toward zero (`roundDown`) or
round-half-up (adding half of the dropped scale, then flooring). -/
def roundMantissa (v : DecVal) (n : Nat) (roundDown : Bool) : Int :=
  if v.e ≤ n then v.m * (10 : Int) ^ (n - v.e)
  else
    let k := v.e - n
    if roundDown then Int.tdiv v.m ((10 : Int) ^ k)
    else (v.m + (10 : Int) ^ k / 2) / (10 : Int) ^ k

/-- Render a scaled mantissa `m / 10 ^ n` in fixed-point form with
exactly `n` fractional digits. -/
def renderFixed (m : Int) (n : Nat) : String :=
  let ds := natToTextL 10 m.natAbs
  let ds := List.replicate (n + 1 - ds.length) '0' ++ ds
  let ip := ds.take (ds.length - n)
  let fp := ds.drop (ds.length - n)
  let body := if n = 0 then ip else ip ++ '.' :: fp
  if m < 0 then ⟨'-' :: body⟩ else ⟨body⟩

/-- The `Round` transform: round the held decimal value to `n`
fractional digits and render it. -/
def Round (v : DecVal) (n : Nat) (roundDown : Bool) : String :=
  renderFixed (roundMantissa v n roundDown) n

/-! ## Numeric conversion: thousands grouping

Modelled from the spec: `Thousands(anglo)` groups the integer digits of
a numeric text by 3 from the right; the default (EU) convention uses `.`
as the group separator and `,` as the decimal separator, `anglo` swaps
them; an all-zero fractional part is dropped; the sign is preserved and
excluded from grouping; non-numeric input passes through unchanged
(§4.2). -/

/-- Split an unsigned numeric text into integer digits and fractional
digits; `none` when the text is not fully numeric (no trailing
characters are tolerated). -/
def splitNumCore (l1 : List Char) : Option (List Char × List Char) :=
  let ip := l1.takeWhile Char.isDigit
  let r1 := l1.dropWhile Char.isDigit
  if ip = [] then none
  else if r1 = [] then some (ip, [])
  else if r1.headD ' ' = '.' ∧ r1.tail ≠ [] ∧ r1.tail.all Char.isDigit then
    some (ip, r1.tail)
  else none

/-- Split a numeric text into sign, integer digits and fractional
digits; `none` when the text is not fully numeric. -/
def splitNum (l : List Char) : Option (Bool × List Char × List Char) :=
  if l.headD ' ' = '-' then
    (splitNumCore l.tail).map (fun p => (true, p.1, p.2))
  else (splitNumCore l).map (fun p => (false, p.1, p.2))

/-- Group a reversed digit list by 3, inserting `sep` between groups.
The fuel argument bounds the recursion: three characters are consumed at
every step, so fuel equal to the list length is enough. -/
def g3rev (sep : Char) : Nat → List Char → List Char
  | 0, l => l
  | fuel + 1, l =>
    if l.length ≤ 3 then l
    else l.take 3 ++ sep :: g3rev sep fuel (l.drop 3)

/-- Group a digit list by 3 from the right with separator `sep`. -/
def group3 (sep : Char) (l : List Char) : List Char :=
  (g3rev sep l.length l.reverse).reverse

/-- The `Thousands` transform on the textual content of the buffer. -/
def Thousands (s : String) (anglo : Bool) : String :=
  match splitNum s.data with
  | none => s
  | some (neg, ip, fp) =>
    let gsep := if anglo then ',' else '.'
    let dsep := if anglo then '.' else ','
    let frac := if fp.all (fun c => c = '0') then [] else dsep :: fp
    ⟨(if neg then ['-'] else []) ++ group3 gsep ip ++ frac⟩

/-! ## Conversion context and chained transforms

Modelled from the spec: the `Conv` entity owns an `out` buffer and an
`err` buffer; `convert` wraps at most one value, recording a usage error
for more; once `err` is non-empty every chained transform is a no-op and
the terminal accessors surface the error (§3, §6, §7). -/

/-- Typed value wrapped by the conversion context. -/
inductive Val where
  | vstr (s : String)
  | vint (n : Int)
  | vbool (b : Bool)
deriving DecidableEq, Repr

/-- Textual rendering of a wrapped value. -/
def renderVal : Val → String
  | .vstr s => s
  | .vint n => intToText 10 n
  | .vbool b => if b then "true" else "false"

/-- The conversion context: result buffer and error buffer. -/
structure Conv where
  out : String
  err : String
deriving DecidableEq, Repr

/-- Usage-error message recorded when `Convert` receives more than one
positional value. -/
def usageErrMsg : String := "invalid number of arguments"

/-- Wrap zero or one value into a fresh context; more than one value is
a usage error recorded into the error buffer. -/
def Convert (vs : List Val) : Conv :=
  match vs with
  | [] => ⟨"", ""⟩
  | [v] => ⟨renderVal v, ""⟩
  | v :: _ :: _ => ⟨renderVal v, usageErrMsg⟩

/-- Chainable transforms on the context. -/
inductive Op where
  | write (v : Val)
  | toUpper
  | toLower
deriving DecidableEq, Repr

/-- Apply one transform: a context in error state is left untouched. -/
def applyOp (c : Conv) (op : Op) : Conv :=
  if c.err ≠ "" then c
  else
    match op with
    | .write v => ⟨c.out ++ renderVal v, c.err⟩
    | .toUpper => ⟨⟨c.out.data.map upChar⟩, c.err⟩
    | .toLower => ⟨⟨c.out.data.map lowChar⟩, c.err⟩

/-- Apply a chain of transforms left to right. -/
def applyOps (c : Conv) (ops : List Op) : Conv := ops.foldl applyOp c

/-- Terminal accessor `String`: empty text on an errored context, never
a panic. -/
def toText (c : Conv) : String := if c.err ≠ "" then "" else c.out

/-- Terminal accessor `StringErr`: text plus an optional error. -/
def toTextOrError (c : Conv) : String × Option String :=
  if c.err ≠ "" then ("", some c.err) else (c.out, none)

/-! ## Format interpreter

Modelled from the spec: the template is scanned into literal spans and
verb descriptors (verb letter, width, precision, flags); verbs consume
one positional argument each (`%%` consumes none); a missing argument
for a consuming verb makes the whole call produce empty text, without
touching the error state (§4.3). -/

/-- Verb descriptor of the transient format plan. -/
structure VerbSpec where
  leftAlign : Bool
  zeroPad : Bool
  width : Nat
  prec : Option Nat
  letter : Char
deriving DecidableEq, Repr

/-- One element of the format plan. -/
inductive FTok where
  | lit (c : Char)
  | pct
  | verb (v : VerbSpec)
deriving DecidableEq, Repr

/-- Parse the flags/width/precision/letter that follow a `%`, returning
the token and the unconsumed remainder. -/
def parseSpec (l : List Char) : FTok × List Char :=
  match l with
  | [] => (.lit '%', [])
  | '%' :: rest => (.pct, rest)
  | _ =>
    let flags := l.takeWhile (fun c => c = '-' || c = '0')
    let r1 := l.dropWhile (fun c => c = '-' || c = '0')
    let wd := r1.takeWhile Char.isDigit
    let r2 := r1.dropWhile Char.isDigit
    let (prec, r3) :=
      match r2 with
      | '.' :: pr =>
        (some (pr.takeWhile Char.isDigit), pr.dropWhile Char.isDigit)
      | _ => (none, r2)
    match r3 with
    | [] => (.lit '%', [])
    | c :: rest =>
      (.verb ⟨flags.contains '-', flags.contains '0',
              (parseNatL 10 wd).getD 0,
              prec.map (fun p => (parseNatL 10 p).getD 0), c⟩, rest)

/-- Scan a template into its format plan.  The fuel argument bounds the
recursion by the template length; each step consumes at least one
character. -/
def tokenizeF : Nat → List Char → List FTok
  | 0, _ => []
  | _ + 1, [] => []
  | fuel + 1, c :: rest =>
    if c = '%' then
      let (t, r) := parseSpec rest
      t :: tokenizeF fuel r
    else .lit c :: tokenizeF fuel rest

/-- Format plan of a template. -/
def tokenize (s : String) : List FTok := tokenizeF s.data.length s.data

/-- Left-pad a character list to the requested width. -/
def padLeft (w : Nat) (p : Char) (l : List Char) : List Char :=
  List.replicate (w - l.length) p ++ l

/-- Right-pad a character list to the requested width. -/
def padRight (w : Nat) (l : List Char) : List Char :=
  l ++ List.replicate (w - l.length) ' '

/-- Base text of a verb applied to its argument. -/
def renderBase (v : VerbSpec) (a : Val) : List Char :=
  match v.letter, a with
  | 'd', .vint n => (intToText 10 n).data
  | 'u', .vint n => natToTextL 10 n.natAbs
  | 'x', .vint n => (intToText 16 n).data
  | 'X', .vint n => ((intToText 16 n).data.map upChar)
  | 'o', .vint n => (intToText 8 n).data
  | 'O', .vint n => (intToText 8 n).data
  | 'b', .vint n => (intToText 2 n).data
  | 'B', .vint n => (intToText 2 n).data
  | 't', .vbool b => if b then "true".data else "false".data
  | 'q', .vstr s => '"' :: s.data ++ ['"']
  | _, a => (renderVal a).data

/-- Full rendering of a verb: base text plus width/flag padding; zero
padding applies after the sign character. -/
def render (v : VerbSpec) (a : Val) : List Char :=
  let base := renderBase v a
  if v.leftAlign then padRight v.width base
  else if v.zeroPad then
    match base with
    | '-' :: rest => '-' :: padLeft (v.width - 1) '0' rest
    | _ => padLeft v.width '0' base
  else padLeft v.width ' ' base

/-- Run a format plan against the argument list; `none` is the
missing-argument condition. -/
def runPlan : List FTok → List Val → Option (List Char)
  | [], _ => some []
  | .lit c :: ts, args => (runPlan ts args).map (fun s => c :: s)
  | .pct :: ts, args => (runPlan ts args).map (fun s => '%' :: s)
  | .verb v :: ts, args =>
    match args with
    | [] => none
    | a :: rest => (runPlan ts rest).map (fun s => render v a ++ s)

/-- Number of arguments the plan consumes. -/
def requiredArgs : List FTok → Nat
  | [] => 0
  | .verb _ :: ts => requiredArgs ts + 1
  | _ :: ts => requiredArgs ts

/-- The `Sprintf`-equivalent entry point: empty text when an argument is
missing. -/
def Sprintf (tmpl : String) (args : List Val) : String :=
  match runPlan (tokenize tmpl) args with
  | none => ""
  | some l => ⟨l⟩

/-- Format into a caller-provided context: the interpreter writes the
`out` buffer only. -/
def sprintfConv (c : Conv) (tmpl : String) (args : List Val) : Conv :=
  ⟨Sprintf tmpl args, c.err⟩

/-! ## Capitalize

Modelled from the spec: uppercase the first letter of each
whitespace-delimited word, preserving all whitespace runs exactly; the
rest of each word is case-folded to lowercase (as exercised by the test
suite's mixed-case inputs); multi-byte sequences are whole code points
(§4.4). -/

/-- Character-level worker: `ws` records whether the previous character
was a word boundary. -/
def capAux (ws : Bool) : List Char → List Char
  | [] => []
  | c :: rest =>
    if isWS c then c :: capAux true rest
    else (if ws then upChar c else lowChar c) :: capAux false rest

/-- The `Capitalize` transform. -/
def Capitalize (s : String) : String := ⟨capAux true s.data⟩

/-- Swap the two locale separators (`.` ↔ `,`), leaving every other
character unchanged; used to state the anglo/EU relationship. -/
def swapSep (c : Char) : Char :=
  if c = '.' then ',' else if c = ',' then '.' else c

/-- Word-start flag at position `i` of a character list: position 0
inherits the incoming flag, any later position starts a word exactly
when its predecessor is whitespace. -/
def startFlag (l : List Char) (ws : Bool) : Nat → Bool
  | 0 => ws
  | i + 1 =>
    match l.get? i with
    | some p => isWS p
    | none => false

/-! ## Translation engine: dictionary registration and lookup

Modelled from the spec: the engine owns a collection of entries sorted
by key; `register` silently skips entries whose key is empty or equals a
recognized language code case-insensitively, merges into an existing
entry by filling only its empty language slots, and inserts new keys
keeping the collection sorted; lookups binary-search the sorted
collection with case-insensitively normalized keys (§3, §4.5). -/

/-- Fixed array of language slots, one per supported language. -/
structure LocStr where
  en : String
  es : String
  zh : String
  hi : String
  ar : String
  pt : String
  fr : String
  de : String
  ru : String
deriving DecidableEq, Repr

/-- Slot of a given language. -/
def LocStr.get (t : LocStr) : lang → String
  | .EN => t.en
  | .ES => t.es
  | .ZH => t.zh
  | .HI => t.hi
  | .AR => t.ar
  | .PT => t.pt
  | .FR => t.fr
  | .DE => t.de
  | .RU => t.ru

/-- Fill only the empty slots of `old` from `new`. -/
def mergeLoc (old new : LocStr) : LocStr :=
  ⟨if old.en = "" then new.en else old.en,
   if old.es = "" then new.es else old.es,
   if old.zh = "" then new.zh else old.zh,
   if old.hi = "" then new.hi else old.hi,
   if old.ar = "" then new.ar else old.ar,
   if old.pt = "" then new.pt else old.pt,
   if old.fr = "" then new.fr else old.fr,
   if old.de = "" then new.de else old.de,
   if old.ru = "" then new.ru else old.ru⟩

/-- One translatable concept: canonical key plus language slots. -/
structure DictEntry where
  key : String
  tr : LocStr
deriving DecidableEq, Repr

/-- Case-insensitively normalized key used for ordering and matching. -/
def nkey (e : DictEntry) : String := lowerStr e.key

/-- Merge an incoming entry into an existing one: the key is kept and
only empty slots are filled. -/
def mergeEntry (old new : DictEntry) : DictEntry :=
  ⟨old.key, mergeLoc old.tr new.tr⟩

/-- Lowercase forms of the recognized language codes, which are reserved
and may not be used as dictionary keys. -/
def langCodeStrings : List String :=
  ["en", "es", "zh", "hi", "ar", "pt", "fr", "de", "ru"]

/-- A key is registrable when it is non-empty and is not a language code
(case-insensitively). -/
def validKey (k : String) : Bool :=
  !(k = "") && !(langCodeStrings.contains (lowerStr k))

/-- Binary search for a normalized key inside the window `[lo, hi)` of
the sorted collection.  The fuel bounds the recursion; `hi - lo` shrinks
at every step, so any fuel above the collection size is enough. -/
def bsearchFuel (d : List DictEntry) (k : String) :
    Nat → Nat → Nat → Option DictEntry
  | 0, _, _ => none
  | fuel + 1, lo, hi =>
    if lo < hi then
      let mid := (lo + hi) / 2
      match d.get? mid with
      | none => none
      | some e =>
        if nkey e < k then bsearchFuel d k fuel (mid + 1) hi
        else if k < nkey e then bsearchFuel d k fuel lo mid
        else some e
    else none

/-- Binary-search lookup over the whole collection. -/
def bsearch (d : List DictEntry) (k : String) : Option DictEntry :=
  bsearchFuel d k (d.length + 1) 0 d.length

/-- Ordered insertion keeping the collection sorted by normalized key. -/
def insertSorted (e : DictEntry) : List DictEntry → List DictEntry
  | [] => [e]
  | x :: xs => if nkey e < nkey x then e :: x :: xs else x :: insertSorted e xs

/-- Register one entry: skip invalid keys; merge into an existing entry
when the key is found, filling only its empty slots; insert new keys in
order otherwise. -/
def register1 (d : List DictEntry) (e : DictEntry) : List DictEntry :=
  if validKey e.key then
    match bsearch d (nkey e) with
    | some _ => d.map (fun x => if nkey x = nkey e then mergeEntry x e else x)
    | none => insertSorted e d
  else d

/-- Register a list of entries left to right. -/
def RegisterWords (d : List DictEntry) (es : List DictEntry) : List DictEntry :=
  es.foldl register1 d

/-- Sortedness invariant of the collection: normalized keys strictly
increase, which also makes them pairwise distinct. -/
def SortedDict (d : List DictEntry) : Prop :=
  d.Pairwise (fun a b => nkey a < nkey b)

instance : DecidablePred SortedDict := fun d =>
  List.instDecidablePairwise d

/-! # Theorems -/

/-! ## Claim C10: zero-argument OutLang detects and overwrites -/

/-- C10: calling `OutLang` with zero arguments does not merely read the
current language — it detects the host system's language, overwrites the
process-wide default with the detected value and returns the detected
code, so a zero-argument call can change the result of subsequent
lookups (here: with default EN and system language ES, the stored
default after the call differs from the previous one). -/
theorem outLang_zero_args_detects :
    (∀ defLang sysLang : lang,
      (OutLang defLang sysLang []).1 = sysLang ∧
      (OutLang defLang sysLang []).2 = langString sysLang) ∧
    (OutLang lang.EN lang.ES []).1 ≠ lang.EN := by
  refine ⟨fun defLang sysLang => ⟨rfl, rfl⟩, by decide⟩

/-! ## Claim C6: multi-value Convert records a usage error -/

/-- Once the error buffer is non-empty, any chain of transforms leaves
the context untouched. -/
theorem applyOps_error_noop (c : Conv) (h : c.err ≠ "") :
    ∀ ops : List Op, applyOps c ops = c := by
  intro ops
  induction ops with
  | nil => rfl
  | cons op rest ih =>
    show applyOps (applyOp c op) rest = c
    have : applyOp c op = c := by simp [applyOp, h]
    rw [this, ih]

/-- C6: wrapping more than one positional value records a usage error in
the error buffer; every chained transform on that context is then a
no-op, the plain accessor returns the empty string, and the
error-returning accessor returns a non-empty error. -/
theorem convert_multi_value_error (vs : List Val) (h : 1 < vs.length) :
    (Convert vs).err ≠ "" ∧
    (∀ ops : List Op, applyOps (Convert vs) ops = Convert vs) ∧
    toText (Convert vs) = "" ∧
    (toTextOrError (Convert vs)).2 ≠ none := by
  match vs, h with
  | v :: w :: rest, _ =>
    have herr : (Convert (v :: w :: rest)).err ≠ "" := by
      simp [Convert, usageErrMsg]
    exact ⟨herr, applyOps_error_noop _ herr,
      by simp [toText, herr], by simp [toTextOrError, herr]⟩

/-- Witness for C6 at the test suite's input `Convert("hello", "world")`
followed by `Write(" more")`. -/
theorem convert_multi_value_error_witness :
    1 < ([Val.vstr "hello", Val.vstr "world"] : List Val).length ∧
    toText (Convert [Val.vstr "hello", Val.vstr "world"]) = "" ∧
    applyOps (Convert [Val.vstr "hello", Val.vstr "world"])
        [Op.write (Val.vstr " more")] =
      Convert [Val.vstr "hello", Val.vstr "world"] :=
  ⟨by decide,
   (convert_multi_value_error _ (by decide)).2.2.1,
   (convert_multi_value_error _ (by decide)).2.1 _⟩

/-! ## Claim C1: missing format arguments yield empty text -/

/-- Running a plan that consumes more arguments than provided reports
the missing-argument condition. -/
theorem runPlan_missing_none :
    ∀ (ts : List FTok) (args : List Val),
      args.length < requiredArgs ts → runPlan ts args = none := by
  intro ts
  induction ts with
  | nil => intro args h; simp [requiredArgs] at h
  | cons t rest ih =>
    intro args h
    match t with
    | .lit c => rw [runPlan, ih args (by simpa [requiredArgs] using h)]; rfl
    | .pct => rw [runPlan, ih args (by simpa [requiredArgs] using h)]; rfl
    | .verb v =>
      match args with
      | [] => rfl
      | a :: args' =>
        have : args'.length < requiredArgs rest := by
          simp [requiredArgs] at h; omega
        rw [runPlan, ih args' this]; rfl

/-- C1: whenever a template's plan requires more arguments than were
passed (so at least one argument-consuming verb is unmatched), the
`Sprintf`-equivalent call produces the empty string — not the literal
template or a partial result — and the conversion context's error buffer
is left untouched. -/
theorem sprintf_missing_arg_empty (tmpl : String) (args : List Val)
    (h : args.length < requiredArgs (tokenize tmpl)) :
    Sprintf tmpl args = "" ∧
    ∀ c : Conv, (sprintfConv c tmpl args).err = c.err := by
  refine ⟨?_, fun c => rfl⟩
  unfold Sprintf
  rw [runPlan_missing_none _ _ h]

/-- Witness for C1 at the test suite's input `Sprintf("Value: %d")` with
no arguments. -/
theorem sprintf_missing_arg_empty_witness :
    ([] : List Val).length < requiredArgs (tokenize "Value: %d") ∧
    Sprintf "Value: %d" [] = "" :=
  ⟨by decide, (sprintf_missing_arg_empty "Value: %d" [] (by decide)).1⟩

/-! ## Claim C9: integer→text→integer round trip -/

/-- Digit characters invert correctly below radix 16. -/
theorem digitVal_digitChar : ∀ d : Nat, d < 16 → digitVal (digitChar d) = some d := by
  decide

/-- Digit characters are never the minus sign. -/
theorem digitChar_ne_minus : ∀ d : Nat, d < 16 → digitChar d ≠ '-' := by
  decide

/-- With enough fuel, the structural digit extraction agrees with
`Nat.digits`. -/
theorem natDigitsRev_eq_digits (r : Nat) (h2 : 2 ≤ r) :
    ∀ (fuel n : Nat), n ≤ fuel →
      natDigitsRev r fuel n = (Nat.digits r n).map digitChar := by
  intro fuel
  induction fuel with
  | zero => intro n hn; interval_cases n; simp [natDigitsRev]
  | succ fuel ih =>
    intro n hn
    by_cases h0 : n = 0
    · subst h0; simp [natDigitsRev]
    · have hlt : n / r < n := Nat.div_lt_self (Nat.pos_of_ne_zero h0) (by omega)
      rw [natDigitsRev, if_neg h0, ih (n / r) (by omega),
        Nat.digits_def' (by omega : 1 < r) (Nat.pos_of_ne_zero h0), List.map_cons]

/-- The rendered digit list equals the reversed `Nat.digits` rendering. -/
theorem natToTextL_eq_digits (r n : Nat) (h2 : 2 ≤ r) :
    natToTextL r n =
      if n = 0 then ['0'] else ((Nat.digits r n).map digitChar).reverse := by
  by_cases h0 : n = 0
  · simp [natToTextL, h0]
  · rw [natToTextL, if_neg h0, if_neg h0, natDigitsRev_eq_digits r h2 n n le_rfl]

/-- Folding the parser over rendered digits accumulates their value. -/
theorem foldl_parseStep_map (r : Nat) (hr : r ≤ 16) :
    ∀ (L : List Nat) (acc : Nat), (∀ d ∈ L, d < r) →
      (L.map digitChar).foldl (parseStep r) (some acc) =
        some (L.foldl (fun a d => a * r + d) acc) := by
  intro L
  induction L with
  | nil => intro acc _; rfl
  | cons d t ih =>
    intro acc hmem
    have hd : d < r := hmem d (List.mem_cons_self d t)
    have hstep : parseStep r (some acc) (digitChar d) = some (acc * r + d) := by
      rw [parseStep, Option.some_bind, digitVal_digitChar d (lt_of_lt_of_le hd hr),
        Option.some_bind, if_pos hd]
    simp only [List.map_cons, List.foldl_cons, hstep]
    exact ih (acc * r + d) (fun x hx => hmem x (List.mem_cons_of_mem d hx))

/-- Folding most-significant-first digits computes `Nat.ofDigits` of the
little-endian digit list. -/
theorem foldl_reverse_ofDigits (r : Nat) :
    ∀ (l : List Nat) (acc : Nat),
      l.reverse.foldl (fun a d => a * r + d) acc =
        acc * r ^ l.length + Nat.ofDigits r l := by
  intro l
  induction l with
  | nil => intro acc; simp [Nat.ofDigits]
  | cons d t ih =>
    intro acc
    rw [List.reverse_cons, List.foldl_append, ih acc]
    simp only [List.foldl_cons, List.foldl_nil, Nat.ofDigits_cons, List.length_cons]
    ring

/-- Parsing the rendered digits of a natural number recovers it. -/
theorem parseNatL_natToTextL (r n : Nat) (h2 : 2 ≤ r) (h16 : r ≤ 16) :
    parseNatL r (natToTextL r n) = some n := by
  by_cases hn : n = 0
  · subst hn
    have h0 : digitVal '0' = some 0 := by decide
    rw [natToTextL, if_pos rfl, parseNatL, if_neg (by simp)]
    simp only [List.foldl_cons, List.foldl_nil, parseStep, Option.some_bind, h0]
    rw [if_pos (by omega : 0 < r)]
    simp
  · have hne : Nat.digits r n ≠ [] := Nat.digits_ne_nil_iff_ne_zero.mpr hn
    have hmap : natToTextL r n = (Nat.digits r n).reverse.map digitChar := by
      rw [natToTextL_eq_digits r n h2, if_neg hn, List.map_reverse]
    have hmem : ∀ d ∈ (Nat.digits r n).reverse, d < r := by
      intro d hd
      exact Nat.digits_lt_base (by omega) (List.mem_reverse.mp hd)
    rw [hmap, parseNatL, if_neg (by simp [hne]),
      foldl_parseStep_map r h16 _ 0 hmem, foldl_reverse_ofDigits]
    simp [Nat.ofDigits_digits]

/-- Rendered digits never contain the minus sign. -/
theorem natToTextL_ne_minus (r n : Nat) (h2 : 2 ≤ r) (h16 : r ≤ 16) :
    ∀ c ∈ natToTextL r n, c ≠ '-' := by
  intro c hc
  by_cases hn : n = 0
  · subst hn; simp [natToTextL] at hc; subst hc; decide
  · rw [natToTextL_eq_digits r n h2, if_neg hn] at hc
    rw [List.mem_reverse, List.mem_map] at hc
    obtain ⟨d, hd, rfl⟩ := hc
    exact digitChar_ne_minus d
      (lt_of_lt_of_le (Nat.digits_lt_base (by omega) hd) h16)

/-- The rendered digit list is never empty. -/
theorem natToTextL_ne_nil (r n : Nat) : natToTextL r n ≠ [] := by
  match n with
  | 0 => simp [natToTextL]
  | k + 1 =>
    rw [natToTextL, if_neg (Nat.succ_ne_zero k), natDigitsRev,
      if_neg (Nat.succ_ne_zero k)]
    simp

/-- Round trip for a fixed radix between 2 and 16. -/
theorem parseInt_intToText (r : Nat) (h2 : 2 ≤ r) (h16 : r ≤ 16) (n : Int) :
    parseInt r (intToText r n) = some n := by
  have hhead : ∀ m : Nat, (natToTextL r m).headD ' ' ≠ '-' := by
    intro m
    have hne := natToTextL_ne_nil r m
    match hl : natToTextL r m with
    | [] => exact absurd hl hne
    | c :: rest =>
      have : c ∈ natToTextL r m := by rw [hl]; exact List.mem_cons_self c rest
      simpa using natToTextL_ne_minus r m h2 h16 c this
  by_cases hn : n < 0
  · rw [intToText, if_pos hn, parseInt]
    simp only [String.data]
    rw [if_pos (by simp), List.tail_cons, parseNatL_natToTextL r _ h2 h16]
    simp only [Option.bind_eq_bind, Option.some_bind, Option.map_some', pure]
    congr 1
    omega
  · rw [intToText, if_neg hn, parseInt]
    simp only [String.data]
    rw [if_neg (hhead n.natAbs), parseNatL_natToTextL r _ h2 h16]
    simp only [Option.bind_eq_bind, Option.some_bind, Option.map_some', pure]
    congr 1
    omega

/-- C9: for every integer and every supported radix (10, 16, 8, 2),
parsing the text produced by the integer-to-text conversion yields the
integer back. -/
theorem parseInt_intToText_roundtrip (n : Int) (r : Nat)
    (h : r = 10 ∨ r = 16 ∨ r = 8 ∨ r = 2) :
    parseInt r (intToText r n) = some n := by
  rcases h with rfl | rfl | rfl | rfl <;>
    exact parseInt_intToText _ (by norm_num) (by norm_num) n

/-- Witness for C9 at `n = -255`, radix 16. -/
theorem parseInt_intToText_roundtrip_witness :
    ((16 : Nat) = 10 ∨ (16 : Nat) = 16 ∨ (16 : Nat) = 8 ∨ (16 : Nat) = 2) ∧
    parseInt 16 (intToText 16 (-255)) = some (-255) :=
  ⟨by norm_num, parseInt_intToText_roundtrip (-255) 16 (by norm_num)⟩

/-! ## Claim C2: rounding policy -/

/-- Euclidean division by a positive natural is the rational floor. -/
theorem ediv_eq_floor (a : Int) (d : Nat) :
    a / (d : Int) = ⌊(a : ℚ) / (d : ℚ)⌋ :=
  (Rat.floor_intCast_div_natCast a d).symm

/-- C2: with `roundDown` unset, `Round(n)` rounds the held value to `n`
fractional digits by round-half-up (floor of the scaled value plus one
half, a ceiling-biased tie-break); with `roundDown` set it truncates the
digits (toward zero); in particular `123.456789` rounded to 2 digits
renders as `"123.46"` and truncated renders as `"123.45"`. -/
theorem round_policy (m : Int) (e n : Nat) (h : n < e) :
    roundMantissa ⟨m, e⟩ n false = ⌊(m : ℚ) / 10 ^ e * 10 ^ n + 1 / 2⌋ ∧
    (0 ≤ m → roundMantissa ⟨m, e⟩ n true = ⌊(m : ℚ) / 10 ^ e * 10 ^ n⌋) ∧
    (m < 0 → roundMantissa ⟨m, e⟩ n true = ⌈(m : ℚ) / 10 ^ e * 10 ^ n⌉) ∧
    Round ⟨123456789, 6⟩ 2 false = "123.46" ∧
    Round ⟨123456789, 6⟩ 2 true = "123.45" := by
  obtain ⟨j, hj⟩ : ∃ j, e - n = j + 1 := ⟨e - n - 1, by omega⟩
  have hscale : (m : ℚ) / 10 ^ e * 10 ^ n = (m : ℚ) / 10 ^ (j + 1) := by
    have he : (10 : ℚ) ^ e = 10 ^ (j + 1) * 10 ^ n := by
      rw [← pow_add]; congr 1; omega
    rw [he]
    have h10n : ((10 : ℚ) ^ n) ≠ 0 := by positivity
    have h10k : ((10 : ℚ) ^ (j + 1)) ≠ 0 := by positivity
    field_simp
    ring
  have hcastpow : ((10 ^ (j + 1) : Nat) : ℚ) = (10 : ℚ) ^ (j + 1) := by
    push_cast; rfl
  have hcastpowZ : ((10 ^ (j + 1) : Nat) : Int) = (10 : Int) ^ (j + 1) := by
    push_cast; rfl
  refine ⟨?_, ?_, ?_, by decide, by decide⟩
  · show (if e ≤ n then m * (10 : Int) ^ (n - e)
      else (m + (10 : Int) ^ (e - n) / 2) / (10 : Int) ^ (e - n)) = _
    rw [if_neg (by omega), hj, hscale]
    have hhalf : (10 : Int) ^ (j + 1) / 2 = 5 * 10 ^ j := by
      have : (10 : Int) ^ (j + 1) = 2 * (5 * 10 ^ j) := by rw [pow_succ]; ring
      rw [this, Int.mul_ediv_cancel_left _ (by norm_num)]
    rw [hhalf]
    have hsum : (m : ℚ) / 10 ^ (j + 1) + 1 / 2 =
        ((2 * m + 10 ^ (j + 1) : Int) : ℚ) / ((2 * 10 ^ (j + 1) : Nat) : ℚ) := by
      have h10k : ((10 : ℚ) ^ (j + 1)) ≠ 0 := by positivity
      push_cast
      field_simp
      ring
    rw [hsum, ← ediv_eq_floor]
    have h2m : (2 * m + 10 ^ (j + 1) : Int) = 2 * (m + 5 * 10 ^ j) := by
      rw [pow_succ]; ring
    have h2d : ((2 * 10 ^ (j + 1) : Nat) : Int) = 2 * 10 ^ (j + 1) := by
      push_cast; rfl
    rw [h2m, h2d, Int.mul_ediv_mul_of_pos _ _ (by norm_num : (0 : Int) < 2)]
  · intro hm
    show (if e ≤ n then m * (10 : Int) ^ (n - e)
      else Int.tdiv m ((10 : Int) ^ (e - n))) = _
    rw [if_neg (by omega), hj, hscale]
    rw [Int.tdiv_eq_ediv hm (by positivity), ← hcastpow, ← ediv_eq_floor,
      hcastpowZ]
  · intro hm
    show (if e ≤ n then m * (10 : Int) ^ (n - e)
      else Int.tdiv m ((10 : Int) ^ (e - n))) = _
    rw [if_neg (by omega), hj, hscale]
    have hmneg : m = -(-m) := by ring
    rw [hmneg, Int.neg_tdiv,
      Int.tdiv_eq_ediv (by omega) (by positivity : (0 : Int) ≤ 10 ^ (j + 1))]
    have hq : ((-(-m) : Int) : ℚ) / 10 ^ (j + 1) =
        -(((-m : Int) : ℚ) / 10 ^ (j + 1)) := by push_cast; ring
    rw [hq, Int.ceil_neg, ← hcastpow, ← ediv_eq_floor, hcastpowZ]

/-- Witness for C2 at the test suite's value `123.456789`, two digits. -/
theorem round_policy_witness :
    (2 : Nat) < 6 ∧ Round ⟨123456789, 6⟩ 2 false = "123.46" :=
  ⟨by norm_num, (round_policy 123456789 6 2 (by norm_num)).2.2.2.1⟩

/-! ## Claim C8: Capitalize preserves whitespace exactly -/

/-- Every letter in the case table is a non-whitespace character. -/
theorem casePairs_not_ws :
    casePairs.all (fun p => !isWS p.1 && !isWS p.2) = true := by decide

/-- Uppercasing never turns a non-whitespace character into whitespace. -/
theorem isWS_upChar (c : Char) (h : isWS c = false) : isWS (upChar c) = false := by
  cases hl : (casePairs.map Prod.swap).lookup c with
  | none => rw [upChar, hl]; simpa using h
  | some u =>
    rw [upChar, hl, Option.getD_some]
    obtain ⟨l1, l2, hsplit, -⟩ := List.lookup_eq_some_iff.mp hl
    have hmem : (c, u) ∈ casePairs.map Prod.swap := by
      rw [hsplit]; exact List.mem_append_right l1 (List.mem_cons_self _ l2)
    obtain ⟨p, hp, hpe⟩ := List.mem_map.mp hmem
    have hall := List.all_eq_true.mp casePairs_not_ws p hp
    have hu : u = p.1 := (congrArg Prod.snd hpe).symm
    rw [hu]
    simp only [Bool.and_eq_true, Bool.not_eq_true'] at hall
    exact hall.1

/-- Lowercasing never turns a non-whitespace character into whitespace. -/
theorem isWS_lowChar (c : Char) (h : isWS c = false) : isWS (lowChar c) = false := by
  cases hl : casePairs.lookup c with
  | none => rw [lowChar, hl]; simpa using h
  | some u =>
    rw [lowChar, hl, Option.getD_some]
    obtain ⟨l1, l2, hsplit, -⟩ := List.lookup_eq_some_iff.mp hl
    have hmem : (c, u) ∈ casePairs := by
      rw [hsplit]; exact List.mem_append_right l1 (List.mem_cons_self _ l2)
    have hall := List.all_eq_true.mp casePairs_not_ws _ hmem
    simp only [Bool.and_eq_true, Bool.not_eq_true'] at hall
    exact hall.2

/-- The capitalize worker preserves length. -/
theorem capAux_length (l : List Char) : ∀ ws, (capAux ws l).length = l.length := by
  induction l with
  | nil => intro ws; rfl
  | cons c r ih =>
    intro ws
    rw [capAux]
    by_cases hc : isWS c
    · rw [if_pos hc]; simp [ih]
    · rw [if_neg hc]; simp [ih]

/-- The word-start flag shifts across a cons cell. -/
theorem startFlag_shift (c : Char) (r : List Char) (ws : Bool) (j : Nat) :
    startFlag (c :: r) ws (j + 1) = startFlag r (isWS c) j := by
  cases j with
  | zero => rfl
  | succ m => rfl

/-- Pointwise description of the capitalize worker: whitespace is kept,
a character at a word start is uppercased, any other character is
lowercased. -/
theorem capAux_get (l : List Char) : ∀ (ws : Bool) (i : Nat),
    (capAux ws l).get? i = (l.get? i).map (fun c =>
      if isWS c then c
      else if startFlag l ws i then upChar c else lowChar c) := by
  induction l with
  | nil => intro ws i; rfl
  | cons c r ih =>
    intro ws i
    rw [capAux]
    by_cases hc : isWS c
    · rw [if_pos hc]
      cases i with
      | zero => simp [startFlag, hc]
      | succ j =>
        simp only [List.get?_cons_succ]
        rw [ih true j, startFlag_shift, hc]
    · rw [if_neg hc]
      cases i with
      | zero => simp [startFlag, hc]
      | succ j =>
        simp only [List.get?_cons_succ]
        rw [ih false j, startFlag_shift]
        have : isWS c = false := by simpa using hc
        rw [this]

/-- C8: `Capitalize` keeps the length, keeps every whitespace character
in place (and introduces no new whitespace, so leading, trailing and
internal whitespace runs are preserved exactly), uppercases the first
letter of every whitespace-delimited word, and maps empty input to empty
output. -/
theorem capitalize_preserves_whitespace (s : String) :
    (Capitalize s).data.length = s.data.length ∧
    (∀ i c, s.data.get? i = some c → isWS c = true →
      (Capitalize s).data.get? i = some c) ∧
    (∀ i c, (Capitalize s).data.get? i = some c → isWS c = true →
      s.data.get? i = some c) ∧
    (∀ i c, s.data.get? i = some c → isWS c = false →
      startFlag s.data true i = true →
      (Capitalize s).data.get? i = some (upChar c)) ∧
    (s = "" → Capitalize s = "") := by
  have hdata : (Capitalize s).data = capAux true s.data := rfl
  refine ⟨?_, ?_, ?_, ?_, ?_⟩
  · rw [hdata, capAux_length]
  · intro i c hic hws
    rw [hdata, capAux_get, hic, Option.map_some', hws]
    simp
  · intro i c hic hws
    rw [hdata, capAux_get] at hic
    cases hsc : s.data.get? i with
    | none => rw [hsc] at hic; exact absurd hic (by simp)
    | some c0 =>
      rw [hsc, Option.map_some'] at hic
      have hc0 : (if isWS c0 then c0
          else if startFlag s.data true i then upChar c0 else lowChar c0) = c :=
        Option.some.inj hic
      by_cases hw0 : isWS c0
      · rw [if_pos hw0] at hc0
        exact congrArg some hc0
      · rw [if_neg hw0] at hc0
        have hwf : isWS c0 = false := by simpa using hw0
        exfalso
        by_cases hsf : startFlag s.data true i
        · rw [if_pos hsf] at hc0
          have hcontra := isWS_upChar c0 hwf
          rw [hc0, hws] at hcontra
          exact Bool.noConfusion hcontra
        · rw [if_neg hsf] at hc0
          have hcontra := isWS_lowChar c0 hwf
          rw [hc0, hws] at hcontra
          exact Bool.noConfusion hcontra
  · intro i c hic hws hsf
    rw [hdata, capAux_get, hic, Option.map_some', hws, hsf]
    simp
  · intro hs
    rw [hs]
    rfl

/-- Witness for C8 at the test suite's padded input, checking that the
leading whitespace character is preserved in place. -/
theorem capitalize_preserves_whitespace_witness :
    (("  hello   world  " : String).data.get? 0 = some ' ' ∧ isWS ' ' = true) ∧
    (Capitalize "  hello   world  ").data.get? 0 = some ' ' :=
  ⟨⟨by decide, by decide⟩,
   (capitalize_preserves_whitespace "  hello   world  ").2.1 0 ' '
     (by decide) (by decide)⟩

/-! ## Claim C7: locale-string resolution -/

/-- A Go-style split never produces an empty segment list. -/
theorem splitChars_ne_nil (sep : Char) : ∀ l : List Char, splitChars sep l ≠ [] := by
  intro l
  induction l with
  | nil => simp [splitChars]
  | cons c rest ih =>
    rw [splitChars]
    by_cases hc : c = sep <;> simp [hc]

/-- The first split segment is the prefix before the separator. -/
theorem splitChars_headD (sep : Char) :
    ∀ l : List Char, (splitChars sep l).headD [] =
      l.takeWhile (fun c => c ≠ sep) := by
  intro l
  induction l with
  | nil => rfl
  | cons c rest ih =>
    rw [splitChars]
    by_cases hc : c = sep
    · subst hc
      rw [if_pos rfl]
      simp [List.takeWhile]
    · rw [if_neg hc]
      have hdec : decide (c ≠ sep) = true := by simp [hc]
      simp only [List.headD_cons, List.takeWhile_cons, hdec, if_true]
      rw [ih]

/-- String-level version of the head-of-split lemma. -/
theorem splitStr_headD (s : String) (sep : Char) :
    (splitStr s sep).headD "" = ⟨s.data.takeWhile (fun c => c ≠ sep)⟩ := by
  rw [splitStr]
  cases h : splitChars sep s.data with
  | nil => exact absurd h (splitChars_ne_nil sep s.data)
  | cons g gs =>
    have := splitChars_headD sep s.data
    rw [h] at this
    simp only [List.headD_cons] at this
    simp only [List.map_cons, List.headD_cons]
    rw [this]

/-- The switch-based code mapping agrees with a lookup in the spec's
table of recognized codes, with EN as the default. -/
theorem mapLangCode_eq_lookup (code : String) :
    mapLangCode code = (recognizedCodes.lookup (lowerStr code)).getD lang.EN := by
  simp only [mapLangCode]
  by_cases h1 : lowerStr code = "en"
  · rw [if_pos h1, h1]; decide
  rw [if_neg h1]
  by_cases h2 : lowerStr code = "es"
  · rw [if_pos h2, h2]; decide
  rw [if_neg h2]
  by_cases h3 : lowerStr code = "zh"
  · rw [if_pos h3, h3]; decide
  rw [if_neg h3]
  by_cases h4 : lowerStr code = "hi"
  · rw [if_pos h4, h4]; decide
  rw [if_neg h4]
  by_cases h5 : lowerStr code = "ar"
  · rw [if_pos h5, h5]; decide
  rw [if_neg h5]
  by_cases h6 : lowerStr code = "pt"
  · rw [if_pos h6, h6]; decide
  rw [if_neg h6]
  by_cases h7 : lowerStr code = "fr"
  · rw [if_pos h7, h7]; decide
  rw [if_neg h7]
  by_cases h8 : lowerStr code = "de"
  · rw [if_pos h8, h8]; decide
  rw [if_neg h8]
  by_cases h9 : lowerStr code = "ru"
  · rw [if_pos h9, h9]; decide
  rw [if_neg h9]
  have hnone : recognizedCodes.lookup (lowerStr code) = none := by
    rw [List.lookup_eq_none_iff]
    intro p hp
    rw [recognizedCodes] at hp
    fin_cases hp <;> simp [bne_iff_ne] <;> assumption
  rw [hnone]
  rfl

/-- C7: resolving a free-form locale string reduces it by cutting at
`.`, `_` and `-` in turn, lowercases the remainder and maps it through
the recognized-code table with EN as the default; furthermore a value
that is neither a `lang` nor a string leaves the default language
unchanged and returns its code, and the string path stores and returns
the parsed language. -/
theorem langParser_spec :
    (∀ s : String, langParser [s] = specLangResolve s) ∧
    (∀ defLang sysLang : lang,
      OutLang defLang sysLang [OutArg.otherVal] = (defLang, langString defLang)) ∧
    (∀ (defLang sysLang : lang) (s : String),
      OutLang defLang sysLang [OutArg.strVal s] =
        (langParser [s], langString (langParser [s]))) := by
  refine ⟨?_, fun _ _ => rfl, fun _ _ _ => rfl⟩
  intro s
  by_cases hs : s = ""
  · subst hs; decide
  · have hd : ∀ l : List Char, (String.mk l).data = l := fun _ => rfl
    simp only [langParser, if_neg hs]
    rw [splitStr_headD, splitStr_headD, splitStr_headD]
    simp only [hd, specLangResolve]
    by_cases hc : (⟨((s.data.takeWhile (fun c => c ≠ '.')).takeWhile
        (fun c => c ≠ '_')).takeWhile (fun c => c ≠ '-')⟩ : String) = ""
    · rw [if_pos hc, hc]
      decide
    · rw [if_neg hc, mapLangCode_eq_lookup]

/-- Witness for C7 at the locale string `"fr_FR.UTF-8"` (resolves to
FR). -/
theorem langParser_spec_witness :
    langParser ["fr_FR.UTF-8"] = specLangResolve "fr_FR.UTF-8" ∧
    langParser ["fr_FR.UTF-8"] = lang.FR :=
  ⟨langParser_spec.1 "fr_FR.UTF-8", by decide⟩

/-! ## Claim C3: thousands grouping -/

/-- Mapping a function that fixes every element is the identity. -/
theorem map_fix {α : Type} (f : α → α) :
    ∀ l : List α, (∀ c ∈ l, f c = c) → l.map f = l := by
  intro l
  induction l with
  | nil => intro _; rfl
  | cons c r ih =>
    intro h
    rw [List.map_cons, h c (List.mem_cons_self c r),
      ih (fun x hx => h x (List.mem_cons_of_mem c hx))]

/-- Erasing the separator from a grouped list recovers the digits. -/
theorem g3rev_filter (sep : Char) :
    ∀ (fuel : Nat) (l : List Char), l.length ≤ fuel → sep ∉ l →
      (g3rev sep fuel l).filter (fun c => decide (c ≠ sep)) = l := by
  intro fuel
  induction fuel with
  | zero =>
    intro l hl _
    have : l = [] := List.length_eq_zero.mp (Nat.le_zero.mp hl)
    subst this; rfl
  | succ fuel ih =>
    intro l hl hsep
    rw [g3rev]
    by_cases h3 : l.length ≤ 3
    · rw [if_pos h3, List.filter_eq_self]
      intro a ha
      rw [decide_eq_true_eq]
      intro he
      exact hsep (he ▸ ha)
    · rw [if_neg h3, List.filter_append, List.filter_cons]
      have hsepf : ¬(decide (sep ≠ sep) = true) := by simp
      rw [if_neg hsepf]
      have htake : (l.take 3).filter (fun c => decide (c ≠ sep)) = l.take 3 := by
        rw [List.filter_eq_self]
        intro a ha
        rw [decide_eq_true_eq]
        intro he
        exact hsep (he ▸ List.mem_of_mem_take ha)
      have hdrop := ih (l.drop 3)
        (by rw [List.length_drop]; omega)
        (fun hm => hsep (List.mem_of_mem_drop hm))
      rw [htake, hdrop, List.take_append_drop]

/-- Grouping decomposes the reversed digit list into chunks: chunks of
exactly three with a final chunk of one to three, the separator sitting
between consecutive chunks. -/
theorem g3rev_chunks (sep : Char) :
    ∀ (fuel : Nat) (l : List Char), l.length ≤ fuel → l ≠ [] →
      ∃ gs : List (List Char),
        l = gs.flatten ∧
        g3rev sep fuel l = ((gs.map (fun g => sep :: g)).flatten).tail ∧
        gs ≠ [] ∧
        (∀ g ∈ gs.dropLast, g.length = 3) ∧
        (∀ g ∈ gs, 1 ≤ g.length ∧ g.length ≤ 3) := by
  intro fuel
  induction fuel with
  | zero =>
    intro l hl hne
    exact absurd (List.length_eq_zero.mp (Nat.le_zero.mp hl)) hne
  | succ fuel ih =>
    intro l hl hne
    by_cases h3 : l.length ≤ 3
    · refine ⟨[l], by simp, ?_, by simp, by simp, ?_⟩
      · rw [g3rev, if_pos h3]; simp
      · intro g hg
        rw [List.mem_singleton] at hg
        have h1 : 1 ≤ l.length := by
          cases l with
          | nil => exact absurd rfl hne
          | cons a r => simp
        rw [hg]
        exact ⟨h1, h3⟩
    · obtain ⟨gs', hjoin, hrec, hne', hdrop3, hbounds⟩ := ih (l.drop 3)
        (by rw [List.length_drop]; omega)
        (by
          intro hd
          have hld := congrArg List.length hd
          rw [List.length_drop] at hld
          simp at hld
          omega)
      have hjoin_cons :
          sep :: ((gs'.map (fun g => sep :: g)).flatten).tail =
            (gs'.map (fun g => sep :: g)).flatten := by
        cases gs' with
        | nil => exact absurd rfl hne'
        | cons g rest => simp
      have htk : (l.take 3).length = 3 := by
        rw [List.length_take]; omega
      refine ⟨l.take 3 :: gs', ?_, ?_, by simp, ?_, ?_⟩
      · rw [List.flatten_cons, ← hjoin, List.take_append_drop]
      · rw [g3rev, if_neg h3, hrec, hjoin_cons, List.map_cons, List.flatten_cons]
        simp [List.cons_append]
      · intro g hg
        cases gs' with
        | nil => exact absurd rfl hne'
        | cons g2 rest =>
          rw [List.dropLast_cons₂, List.mem_cons] at hg
          rcases hg with rfl | hg
          · exact htk
          · exact hdrop3 g hg
      · intro g hg
        rw [List.mem_cons] at hg
        rcases hg with rfl | hg
        · omega
        · exact hbounds g hg

/-- Structure extracted by a successful unsigned split: the integer
part is a non-empty run of digits and the fractional part is all
digits. -/
theorem splitNumCore_facts (l1 : List Char) (ip fp : List Char)
    (h : splitNumCore l1 = some (ip, fp)) :
    (∀ c ∈ ip, c.isDigit = true) ∧ ip ≠ [] ∧ (∀ c ∈ fp, c.isDigit = true) := by
  simp only [splitNumCore] at h
  by_cases h1 : l1.takeWhile Char.isDigit = []
  · rw [if_pos h1] at h; exact absurd h (by simp)
  · rw [if_neg h1] at h
    by_cases h2 : l1.dropWhile Char.isDigit = []
    · rw [if_pos h2, Option.some.injEq, Prod.mk.injEq] at h
      obtain ⟨hip2, hfp⟩ := h
      refine ⟨?_, ?_, ?_⟩
      · intro c hc
        rw [← hip2] at hc
        exact List.mem_takeWhile_imp hc
      · rw [← hip2]; exact h1
      · intro c hc; rw [← hfp] at hc; exact absurd hc (List.not_mem_nil c)
    · rw [if_neg h2] at h
      by_cases h3 : (l1.dropWhile Char.isDigit).headD ' ' = '.' ∧
          (l1.dropWhile Char.isDigit).tail ≠ [] ∧
          ((l1.dropWhile Char.isDigit).tail.all Char.isDigit) = true
      · rw [if_pos h3, Option.some.injEq, Prod.mk.injEq] at h
        obtain ⟨hip2, hfp⟩ := h
        refine ⟨?_, ?_, ?_⟩
        · intro c hc
          rw [← hip2] at hc
          exact List.mem_takeWhile_imp hc
        · rw [← hip2]; exact h1
        · intro c hc
          rw [← hfp] at hc
          exact List.all_eq_true.mp h3.2.2 c hc
      · rw [if_neg h3] at h; exact absurd h (by simp)

/-- Structure extracted by a successful numeric split. -/
theorem splitNum_facts (l : List Char) (neg : Bool) (ip fp : List Char)
    (h : splitNum l = some (neg, ip, fp)) :
    (∀ c ∈ ip, c.isDigit = true) ∧ ip ≠ [] ∧ (∀ c ∈ fp, c.isDigit = true) := by
  rw [splitNum] at h
  by_cases hneg : l.headD ' ' = '-'
  · rw [if_pos hneg] at h
    cases hc : splitNumCore l.tail with
    | none => rw [hc] at h; exact absurd h (by simp)
    | some p =>
      rw [hc, Option.map_some'] at h
      rw [Option.some.injEq, Prod.mk.injEq, Prod.mk.injEq] at h
      obtain ⟨-, h2, h3⟩ := h
      have := splitNumCore_facts l.tail p.1 p.2 (by rw [hc])
      rw [h2, h3] at this
      exact this
  · rw [if_neg hneg] at h
    cases hc : splitNumCore l with
    | none => rw [hc] at h; exact absurd h (by simp)
    | some p =>
      rw [hc, Option.map_some'] at h
      rw [Option.some.injEq, Prod.mk.injEq, Prod.mk.injEq] at h
      obtain ⟨-, h2, h3⟩ := h
      have := splitNumCore_facts l p.1 p.2 (by rw [hc])
      rw [h2, h3] at this
      exact this

/-- Digits are unaffected by the separator swap. -/
theorem swapSep_digit (c : Char) (h : c.isDigit = true) : swapSep c = c := by
  have h1 : c ≠ '.' := by rintro rfl; exact absurd h (by decide)
  have h2 : c ≠ ',' := by rintro rfl; exact absurd h (by decide)
  rw [swapSep, if_neg h1, if_neg h2]

/-- Swapping separators commutes with grouping when the grouped
characters are themselves fixed by the swap. -/
theorem g3rev_map_swap (sep : Char) :
    ∀ (fuel : Nat) (l : List Char), (∀ c ∈ l, swapSep c = c) →
      (g3rev sep fuel l).map swapSep = g3rev (swapSep sep) fuel l := by
  intro fuel
  induction fuel with
  | zero => intro l hfix; exact map_fix swapSep l hfix
  | succ fuel ih =>
    intro l hfix
    rw [g3rev, g3rev]
    by_cases h3 : l.length ≤ 3
    · rw [if_pos h3, if_pos h3]
      exact map_fix swapSep l hfix
    · rw [if_neg h3, if_neg h3, List.map_append, List.map_cons]
      rw [map_fix swapSep (l.take 3)
        (fun c hc => hfix c (List.mem_of_mem_take hc))]
      rw [ih (l.drop 3) (fun c hc => hfix c (List.mem_of_mem_drop hc))]

/-- Swapping separators turns EU grouping into anglo grouping. -/
theorem group3_map_swap (ip : List Char)
    (hdig : ∀ c ∈ ip, c.isDigit = true) :
    (group3 '.' ip).map swapSep = group3 ',' ip := by
  have hfix : ∀ c ∈ ip.reverse, swapSep c = c := fun c hc =>
    swapSep_digit c (hdig c (List.mem_reverse.mp hc))
  rw [group3, group3, List.map_reverse,
    g3rev_map_swap '.' ip.length ip.reverse hfix]
  rfl

/-- C3: `Thousands` passes non-numeric text through unchanged; on
numeric text it renders the sign (excluded from grouping), the grouped
integer digits and the fractional part with the locale's decimal
separator, dropping an all-zero fraction; erasing the group separator
recovers the integer digits; the grouped text decomposes (reading from
the right, that is, on the reversed digit list) into chunks of exactly
three digits with a final chunk of one to three; and the anglo form is
the EU form with the two separators swapped.  The test suite's concrete
examples are reproduced. -/
theorem thousands_grouping (s : String) (b : Bool) :
    (splitNum s.data = none → Thousands s b = s) ∧
    (∀ neg ip fp, splitNum s.data = some (neg, ip, fp) →
      ((Thousands s b).data =
        (if neg then ['-'] else []) ++ group3 (if b then ',' else '.') ip ++
          (if fp.all (fun c => c = '0') then []
           else (if b then '.' else ',') :: fp)) ∧
      ((group3 (if b then ',' else '.') ip).filter
          (fun c => decide (c ≠ (if b then ',' else '.'))) = ip) ∧
      (∃ gs : List (List Char),
        ip.reverse = gs.flatten ∧
        (group3 (if b then ',' else '.') ip).reverse =
          ((gs.map (fun g => (if b then ',' else '.') :: g)).flatten).tail ∧
        gs ≠ [] ∧ (∀ g ∈ gs.dropLast, g.length = 3) ∧
        (∀ g ∈ gs, 1 ≤ g.length ∧ g.length ≤ 3)) ∧
      Thousands s true = ⟨(Thousands s false).data.map swapSep⟩) ∧
    (Thousands "1234567" false = "1.234.567" ∧
     Thousands "1234567" true = "1,234,567" ∧
     Thousands "-2189009" false = "-2.189.009" ∧
     Thousands "2189009.00" false = "2.189.009" ∧
     Thousands "hello" false = "hello") := by
  refine ⟨?_, ?_, by decide, by decide, by decide, by decide, by decide⟩
  · intro h
    simp [Thousands, h]
  · intro neg ip fp h
    obtain ⟨hdig_ip, hip_ne, hdig_fp⟩ := splitNum_facts s.data neg ip fp h
    have hsep_notin : (if b then ',' else '.') ∉ ip := by
      intro hm
      have hd := hdig_ip _ hm
      cases b <;> exact absurd hd (by decide)
    refine ⟨?_, ?_, ?_, ?_⟩
    · simp only [Thousands, h]
    · rw [group3, List.filter_reverse,
        g3rev_filter _ ip.length ip.reverse
          (by rw [List.length_reverse])
          (fun hm => hsep_notin (List.mem_reverse.mp hm)),
        List.reverse_reverse]
    · have hrev_ne : ip.reverse ≠ [] := by
        intro hm
        exact hip_ne (by simpa using congrArg List.reverse hm)
      obtain ⟨gs, h1, h2, h3, h4, h5⟩ :=
        g3rev_chunks (if b then ',' else '.') ip.length ip.reverse
          (by rw [List.length_reverse]) hrev_ne
      exact ⟨gs, h1, by rw [group3, List.reverse_reverse]; exact h2, h3, h4, h5⟩
    · simp only [Thousands, h]
      have hmap : ((if neg then ['-'] else []) ++ group3 '.' ip ++
          (if fp.all (fun c => c = '0') then [] else ',' :: fp)).map swapSep =
          (if neg then ['-'] else []) ++ group3 ',' ip ++
          (if fp.all (fun c => c = '0') then [] else '.' :: fp) := by
        rw [List.map_append, List.map_append]
        congr 1
        congr 1
        · cases neg <;> rfl
        · exact group3_map_swap ip hdig_ip
        · by_cases hz : fp.all (fun c => c = '0')
          · rw [if_pos hz, if_pos hz]; rfl
          · rw [if_neg hz, if_neg hz, List.map_cons]
            have : swapSep ',' = '.' := rfl
            rw [this, map_fix swapSep fp
              (fun c hc => swapSep_digit c (hdig_fp c hc))]
      exact congrArg String.mk hmap.symm

/-- Witness for C3 at the test suite's input `-2189009.00` in EU mode:
the fraction is dropped and the sign is kept out of the grouping. -/
theorem thousands_grouping_witness :
    splitNum ("-2189009.00" : String).data =
      some (true, ['2', '1', '8', '9', '0', '0', '9'], ['0', '0']) ∧
    (Thousands "-2189009.00" false).data =
      (if true then ['-'] else []) ++
        group3 '.' ['2', '1', '8', '9', '0', '0', '9'] ++
        (if (['0', '0'].all (fun c => c = '0')) then [] else ',' :: ['0', '0']) :=
  ⟨by decide,
   by
    have hx := ((thousands_grouping "-2189009.00" false).2.1
      true ['2', '1', '8', '9', '0', '0', '9'] ['0', '0'] (by decide)).1
    simpa using hx⟩

/-! ## Claims C4 and C5: dictionary registration -/

/-- Binary search only returns entries of the collection, with the
searched key. -/
theorem bsearchFuel_sound (d : List DictEntry) (k : String) :
    ∀ (fuel lo hi : Nat) (r : DictEntry),
      bsearchFuel d k fuel lo hi = some r → nkey r = k ∧ r ∈ d := by
  intro fuel
  induction fuel with
  | zero => intro lo hi r h; exact absurd h (by simp [bsearchFuel])
  | succ fuel ih =>
    intro lo hi r h
    rw [bsearchFuel] at h
    dsimp only at h
    by_cases hlohi : lo < hi
    · rw [if_pos hlohi] at h
      cases hget : d.get? ((lo + hi) / 2) with
      | none => rw [hget] at h; exact absurd h (by simp)
      | some em =>
        rw [hget] at h
        dsimp only at h
        by_cases hlt : nkey em < k
        · rw [if_pos hlt] at h; exact ih _ _ r h
        · rw [if_neg hlt] at h
          by_cases hgt : k < nkey em
          · rw [if_pos hgt] at h; exact ih _ _ r h
          · rw [if_neg hgt, Option.some.injEq] at h
            subst h
            exact ⟨le_antisymm (not_lt.mp hgt) (not_lt.mp hlt),
              List.get?_mem hget⟩
    · rw [if_neg hlohi] at h; exact absurd h (by simp)

/-- Binary search finds any key present in the window of a sorted
collection. -/
theorem bsearchFuel_finds (d : List DictEntry) (k : String)
    (hsort : SortedDict d) :
    ∀ (fuel lo hi : Nat), hi - lo < fuel → hi ≤ d.length →
      ∀ (i : Nat) (e : DictEntry), lo ≤ i → i < hi → d.get? i = some e →
        nkey e = k →
        ∃ r, bsearchFuel d k fuel lo hi = some r ∧ nkey r = k := by
  have hgetlt := List.pairwise_iff_get.mp hsort
  intro fuel
  induction fuel with
  | zero => intro lo hi hfuel _ i e hlo hih _ _; omega
  | succ fuel ih =>
    intro lo hi hfuel hhi i e hlo hih hget hk
    have hlohi : lo < hi := lt_of_le_of_lt hlo hih
    have hilen : i < d.length := lt_of_lt_of_le hih hhi
    have hmidlt : (lo + hi) / 2 < hi := by omega
    have hmidge : lo ≤ (lo + hi) / 2 := by omega
    have hmidlen : (lo + hi) / 2 < d.length := lt_of_lt_of_le hmidlt hhi
    have hem : d.get? ((lo + hi) / 2) =
        some (d.get ⟨(lo + hi) / 2, hmidlen⟩) := List.get?_eq_get hmidlen
    have hie : d.get ⟨i, hilen⟩ = e := by
      have := List.get?_eq_get hilen
      rw [hget] at this
      exact (Option.some.inj this).symm
    rw [bsearchFuel]
    dsimp only
    rw [if_pos hlohi, hem]
    dsimp only
    set em := d.get ⟨(lo + hi) / 2, hmidlen⟩ with hemdef
    by_cases hlt : nkey em < k
    · rw [if_pos hlt]
      have himid : (lo + hi) / 2 < i := by
        by_contra hle
        push_neg at hle
        rcases lt_or_eq_of_le hle with hlt2 | heq
        · have hordered := hgetlt ⟨i, hilen⟩ ⟨(lo + hi) / 2, hmidlen⟩ hlt2
          rw [hie, hk] at hordered
          exact absurd (lt_trans hordered hlt) (lt_irrefl k)
        · rw [heq] at hget
          rw [hget, Option.some.injEq] at hem
          rw [← hem, hk] at hlt
          exact absurd hlt (lt_irrefl k)
      exact ih ((lo + hi) / 2 + 1) hi (by omega) hhi i e (by omega) hih hget hk
    · rw [if_neg hlt]
      by_cases hgt : k < nkey em
      · rw [if_pos hgt]
        have himid : i < (lo + hi) / 2 := by
          by_contra hle
          push_neg at hle
          rcases lt_or_eq_of_le hle with hlt2 | heq
          · have hordered := hgetlt ⟨(lo + hi) / 2, hmidlen⟩ ⟨i, hilen⟩ hlt2
            rw [hie, hk] at hordered
            exact absurd (lt_trans hordered hgt) (lt_irrefl (nkey em))
          · rw [← heq] at hget
            rw [hget, Option.some.injEq] at hem
            rw [← hem, hk] at hgt
            exact absurd hgt (lt_irrefl k)
        exact ih lo ((lo + hi) / 2) (by omega) (le_of_lt hmidlen) i e hlo
          himid hget hk
      · rw [if_neg hgt]
        exact ⟨em, rfl, le_antisymm (not_lt.mp hgt) (not_lt.mp hlt)⟩

/-- Binary-search lookup finds any key present in a sorted collection. -/
theorem bsearch_finds (d : List DictEntry) (k : String) (e : DictEntry)
    (hsort : SortedDict d) (he : e ∈ d) (hk : nkey e = k) :
    ∃ r, bsearch d k = some r ∧ nkey r = k := by
  obtain ⟨i, hi⟩ := List.mem_iff_get.mp he
  have hget : d.get? i.val = some e := by rw [List.get?_eq_get i.isLt, hi]
  exact bsearchFuel_finds d k hsort (d.length + 1) 0 d.length (by omega)
    le_rfl i.val e (Nat.zero_le _) i.isLt hget hk

/-- On a sorted collection a failed lookup means the key is absent. -/
theorem bsearch_none_not_mem (d : List DictEntry) (k : String)
    (hsort : SortedDict d) (h : bsearch d k = none) :
    ∀ x ∈ d, nkey x ≠ k := by
  intro x hx hk
  obtain ⟨r, hr, -⟩ := bsearch_finds d k x hsort hx hk
  rw [h] at hr
  exact absurd hr (by simp)

/-- Entries of a sorted collection are determined by their key. -/
theorem sorted_key_unique {d : List DictEntry} {a b : DictEntry}
    (hsort : SortedDict d) (ha : a ∈ d) (hb : b ∈ d)
    (hk : nkey a = nkey b) : a = b := by
  have hgetlt := List.pairwise_iff_get.mp hsort
  obtain ⟨i, hi⟩ := List.mem_iff_get.mp ha
  obtain ⟨j, hj⟩ := List.mem_iff_get.mp hb
  rcases lt_trichotomy i j with h | h | h
  · have := hgetlt i j h
    rw [hi, hj, hk] at this
    exact absurd this (lt_irrefl _)
  · rw [← hi, ← hj, h]
  · have := hgetlt j i h
    rw [hi, hj, hk] at this
    exact absurd this (lt_irrefl _)

/-- Membership in an ordered insertion. -/
theorem insertSorted_mem (e x : DictEntry) :
    ∀ d : List DictEntry, x ∈ insertSorted e d ↔ x = e ∨ x ∈ d := by
  intro d
  induction d with
  | nil => simp [insertSorted]
  | cons y ys ih =>
    rw [insertSorted]
    by_cases hc : nkey e < nkey y
    · rw [if_pos hc]
      constructor
      · intro h
        rcases List.mem_cons.mp h with rfl | h2
        · exact Or.inl rfl
        · exact Or.inr h2
      · intro h
        rcases h with rfl | h2
        · exact List.mem_cons_self _ _
        · exact List.mem_cons_of_mem _ h2
    · rw [if_neg hc]
      constructor
      · intro h
        rcases List.mem_cons.mp h with rfl | h2
        · exact Or.inr (List.mem_cons_self _ _)
        · rcases ih.mp h2 with rfl | h3
          · exact Or.inl rfl
          · exact Or.inr (List.mem_cons_of_mem _ h3)
      · intro h
        rcases h with rfl | h2
        · exact List.mem_cons_of_mem _ (ih.mpr (Or.inl rfl))
        · rcases List.mem_cons.mp h2 with rfl | h3
          · exact List.mem_cons_self _ _
          · exact List.mem_cons_of_mem _ (ih.mpr (Or.inr h3))

/-- Ordered insertion of a fresh key keeps the collection sorted. -/
theorem insertSorted_sorted (e : DictEntry) :
    ∀ d : List DictEntry, SortedDict d → (∀ x ∈ d, nkey x ≠ nkey e) →
      SortedDict (insertSorted e d) := by
  intro d
  induction d with
  | nil => intro _ _; simp [insertSorted, SortedDict]
  | cons y ys ih =>
    intro hsort hfresh
    rw [SortedDict, List.pairwise_cons] at hsort
    obtain ⟨hy, hys⟩ := hsort
    rw [insertSorted]
    by_cases hc : nkey e < nkey y
    · rw [if_pos hc, SortedDict, List.pairwise_cons]
      refine ⟨?_, ?_⟩
      · intro z hz
        rcases List.mem_cons.mp hz with rfl | h2
        · exact hc
        · exact lt_trans hc (hy z h2)
      · rw [List.pairwise_cons]
        exact ⟨hy, hys⟩
    · rw [if_neg hc, SortedDict, List.pairwise_cons]
      have hyx : nkey y < nkey e :=
        lt_of_le_of_ne (not_lt.mp hc)
          (fun h => hfresh y (List.mem_cons_self y ys) h)
      refine ⟨?_, ?_⟩
      · intro z hz
        rcases (insertSorted_mem e z ys).mp hz with rfl | h2
        · exact hyx
        · exact hy z h2
      · exact ih hys (fun x hx => hfresh x (List.mem_cons_of_mem y hx))

/-- The merge map preserves every normalized key. -/
theorem mergeMap_nkey (e : DictEntry) (x : DictEntry) :
    nkey (if nkey x = nkey e then mergeEntry x e else x) = nkey x := by
  by_cases h : nkey x = nkey e
  · rw [if_pos h]; rfl
  · rw [if_neg h]

/-- One registration step keeps the collection sorted. -/
theorem register1_sorted (d : List DictEntry) (e : DictEntry)
    (hsort : SortedDict d) : SortedDict (register1 d e) := by
  rw [register1]
  by_cases hv : validKey e.key = true
  · rw [if_pos hv]
    cases hb : bsearch d (nkey e) with
    | some r =>
      exact List.Pairwise.map _
        (fun a b hab => by rw [mergeMap_nkey, mergeMap_nkey]; exact hab) hsort
    | none =>
      exact insertSorted_sorted e d hsort (bsearch_none_not_mem d (nkey e)
        hsort hb)
  · rw [if_neg hv]; exact hsort

/-- One registration step never removes a key. -/
theorem register1_keeps (d : List DictEntry) (e : DictEntry) (k : String)
    (h : ∃ x ∈ d, nkey x = k) : ∃ x ∈ register1 d e, nkey x = k := by
  obtain ⟨x, hx, hk⟩ := h
  rw [register1]
  by_cases hv : validKey e.key = true
  · rw [if_pos hv]
    cases hb : bsearch d (nkey e) with
    | some r =>
      refine ⟨if nkey x = nkey e then mergeEntry x e else x,
        List.mem_map_of_mem _ hx, ?_⟩
      rw [mergeMap_nkey]; exact hk
    | none => exact ⟨x, (insertSorted_mem e x d).mpr (Or.inr hx), hk⟩
  · rw [if_neg hv]; exact ⟨x, hx, hk⟩

/-- A validly-keyed registration makes its key present. -/
theorem register1_adds (d : List DictEntry) (e : DictEntry)
    (hv : validKey e.key = true) :
    ∃ x ∈ register1 d e, nkey x = nkey e := by
  rw [register1, if_pos hv]
  cases hb : bsearch d (nkey e) with
  | some r =>
    obtain ⟨hrk, hrmem⟩ := bsearchFuel_sound d (nkey e) _ _ _ r hb
    refine ⟨if nkey r = nkey e then mergeEntry r e else r,
      List.mem_map_of_mem _ hrmem, ?_⟩
    rw [mergeMap_nkey]; exact hrk
  | none => exact ⟨e, (insertSorted_mem e e d).mpr (Or.inl rfl), rfl⟩

/-- Registration of a list of entries keeps the collection sorted. -/
theorem RegisterWords_sorted (es : List DictEntry) :
    ∀ d : List DictEntry, SortedDict d → SortedDict (RegisterWords d es) := by
  induction es with
  | nil => intro d h; exact h
  | cons e rest ih =>
    intro d h
    exact ih (register1 d e) (register1_sorted d e h)

/-- Registration never removes a key. -/
theorem RegisterWords_keeps (es : List DictEntry) :
    ∀ (d : List DictEntry) (k : String), (∃ x ∈ d, nkey x = k) →
      ∃ x ∈ RegisterWords d es, nkey x = k := by
  induction es with
  | nil => intro d k h; exact h
  | cons e rest ih =>
    intro d k h
    exact ih (register1 d e) k (register1_keeps d e k h)

/-- Every validly-keyed entry of a registration batch is present
afterwards. -/
theorem RegisterWords_present (es : List DictEntry) :
    ∀ (d : List DictEntry) (e : DictEntry), e ∈ es → validKey e.key = true →
      ∃ x ∈ RegisterWords d es, nkey x = nkey e := by
  induction es with
  | nil => intro d e hmem; exact absurd hmem (List.not_mem_nil e)
  | cons e1 rest ih =>
    intro d e hmem hv
    rcases List.mem_cons.mp hmem with rfl | hmem2
    · exact RegisterWords_keeps rest (register1 d e) (nkey e)
        (register1_adds d e hv)
    · exact ih (register1 d e1) e hmem2 hv

/-- C5: after any `RegisterWords` call on a sorted collection, the
collection is still sorted by normalized key, its keys are pairwise
distinct, and a binary-search lookup finds every validly-keyed entry
that was registered — including keys that sort before all previously
registered keys. -/
theorem registerWords_invariants (d es : List DictEntry)
    (hs : SortedDict d) :
    SortedDict (RegisterWords d es) ∧
    (RegisterWords d es).Pairwise (fun a b => nkey a ≠ nkey b) ∧
    (∀ e ∈ es, validKey e.key = true →
      ∃ r, bsearch (RegisterWords d es) (nkey e) = some r ∧
        nkey r = nkey e) := by
  have hsorted := RegisterWords_sorted es d hs
  refine ⟨hsorted, ?_, ?_⟩
  · exact hsorted.imp (fun hab => ne_of_lt hab)
  · intro e hmem hv
    obtain ⟨x, hx, hkx⟩ := RegisterWords_present es d e hmem hv
    exact bsearch_finds (RegisterWords d es) (nkey e) x hsorted hx hkx

/-- Witness for C5: registering `aaa` into the empty (sorted)
collection, then looking it up. -/
theorem registerWords_invariants_witness :
    SortedDict ([] : List DictEntry) ∧
    (∀ e ∈ [(⟨"aaa", ⟨"aaa", "", "", "", "", "", "", "", ""⟩⟩ : DictEntry)],
      validKey e.key = true →
      ∃ r, bsearch (RegisterWords []
          [⟨"aaa", ⟨"aaa", "", "", "", "", "", "", "", ""⟩⟩]) (nkey e) =
            some r ∧ nkey r = nkey e) :=
  ⟨by decide,
   (registerWords_invariants []
     [⟨"aaa", ⟨"aaa", "", "", "", "", "", "", "", ""⟩⟩] (by decide)).2.2⟩

/-- C4: registering an entry whose key is empty or equals a language
code case-insensitively leaves any collection untouched — the entry is
silently skipped whether or not its key is present; registering an
entry whose key already exists merges it into the existing entry: the
resulting entry keeps the key, keeps every populated slot unchanged
(so a later registration with different text for a populated slot does
not alter it), fills every empty slot from the incoming entry, and is
the only entry with that key. -/
theorem register_skip_and_merge (d : List DictEntry) (e : DictEntry) :
    ((e.key = "" ∨ lowerStr e.key ∈ langCodeStrings) → register1 d e = d) ∧
    (SortedDict d → validKey e.key = true →
      ∀ x, x ∈ d → nkey x = nkey e →
      ∃ x', x' ∈ register1 d e ∧ x'.key = x.key ∧
        (∀ g : lang, x.tr.get g ≠ "" → x'.tr.get g = x.tr.get g) ∧
        (∀ g : lang, x.tr.get g = "" → x'.tr.get g = e.tr.get g) ∧
        (∀ y ∈ register1 d e, nkey y = nkey e → y = x')) := by
  constructor
  · intro h
    have hv : validKey e.key = false := by
      rcases h with h1 | h2
      · simp [validKey, h1]
      · have hcont : langCodeStrings.elem (lowerStr e.key) = true :=
          List.elem_iff.mpr h2
        simp [validKey, List.contains, hcont]
        exact fun _ => h2
    rw [register1, hv]
    rfl
  · intro hs hv x hx hk
    obtain ⟨r, hb, -⟩ := bsearch_finds d (nkey e) x hs hx hk
    rw [register1, if_pos hv, hb]
    dsimp only
    refine ⟨mergeEntry x e, ?_, rfl, ?_, ?_, ?_⟩
    · have hmem := List.mem_map_of_mem
        (fun z => if nkey z = nkey e then mergeEntry z e else z) hx
      dsimp only at hmem
      rw [if_pos hk] at hmem
      exact hmem
    · intro g hne
      cases g <;>
        (dsimp only [mergeEntry, mergeLoc, LocStr.get] at hne ⊢;
         rw [if_neg hne])
    · intro g hemp
      cases g <;>
        (dsimp only [mergeEntry, mergeLoc, LocStr.get] at hemp ⊢;
         rw [if_pos hemp])
    · intro y hy hyk
      obtain ⟨z, hz, hze⟩ := List.mem_map.mp hy
      have hzk : nkey z = nkey e := by
        have := mergeMap_nkey e z
        rw [hze] at this
        rw [← this]
        exact hyk
      have hzx : z = x := sorted_key_unique hs hz hx (hzk.trans hk.symm)
      rw [← hze, hzx, if_pos hk]

/-- Witness for C4, exercising both conjuncts.  Skip side: registering
`{key:"es", ES:"not reachable"}` — a language-code key that is absent
from the collection (the sole existing key is `x`) — leaves the
collection untouched, as in the validation test.  Merge side: merging
`{key:"x", EN:"C", ES:"B"}` into the existing entry `{key:"x", EN:"A"}`
with the same key. -/
theorem register_skip_and_merge_witness :
    (("es" = "" ∨ lowerStr "es" ∈ langCodeStrings) ∧
     nkey (⟨"x", ⟨"A", "", "", "", "", "", "", "", ""⟩⟩ : DictEntry) ≠
       nkey (⟨"es", ⟨"not reachable", "", "", "", "", "", "", "", ""⟩⟩ :
         DictEntry) ∧
     register1 [(⟨"x", ⟨"A", "", "", "", "", "", "", "", ""⟩⟩ : DictEntry)]
         ⟨"es", ⟨"not reachable", "", "", "", "", "", "", "", ""⟩⟩ =
       [(⟨"x", ⟨"A", "", "", "", "", "", "", "", ""⟩⟩ : DictEntry)]) ∧
    ((SortedDict [(⟨"x", ⟨"A", "", "", "", "", "", "", "", ""⟩⟩ : DictEntry)] ∧
      (⟨"x", ⟨"A", "", "", "", "", "", "", "", ""⟩⟩ : DictEntry) ∈
        [(⟨"x", ⟨"A", "", "", "", "", "", "", "", ""⟩⟩ : DictEntry)] ∧
      nkey (⟨"x", ⟨"A", "", "", "", "", "", "", "", ""⟩⟩ : DictEntry) =
        nkey (⟨"x", ⟨"C", "B", "", "", "", "", "", "", ""⟩⟩ : DictEntry) ∧
      validKey "x" = true) ∧
     (∃ x', x' ∈ register1
         [(⟨"x", ⟨"A", "", "", "", "", "", "", "", ""⟩⟩ : DictEntry)]
         ⟨"x", ⟨"C", "B", "", "", "", "", "", "", ""⟩⟩ ∧
       x'.key = (⟨"x", ⟨"A", "", "", "", "", "", "", "", ""⟩⟩ : DictEntry).key ∧
       (∀ g : lang,
         (⟨"x", ⟨"A", "", "", "", "", "", "", "", ""⟩⟩ : DictEntry).tr.get g ≠ "" →
         x'.tr.get g =
           (⟨"x", ⟨"A", "", "", "", "", "", "", "", ""⟩⟩ : DictEntry).tr.get g) ∧
       (∀ g : lang,
         (⟨"x", ⟨"A", "", "", "", "", "", "", "", ""⟩⟩ : DictEntry).tr.get g = "" →
         x'.tr.get g =
           (⟨"x", ⟨"C", "B", "", "", "", "", "", "", ""⟩⟩ : DictEntry).tr.get g) ∧
       (∀ y ∈ register1
           [(⟨"x", ⟨"A", "", "", "", "", "", "", "", ""⟩⟩ : DictEntry)]
           ⟨"x", ⟨"C", "B", "", "", "", "", "", "", ""⟩⟩,
         nkey y = nkey (⟨"x", ⟨"C", "B", "", "", "", "", "", "", ""⟩⟩ :
           DictEntry) →
         y = x'))) :=
  ⟨⟨by decide, by decide,
    (register_skip_and_merge
      [(⟨"x", ⟨"A", "", "", "", "", "", "", "", ""⟩⟩ : DictEntry)]
      ⟨"es", ⟨"not reachable", "", "", "", "", "", "", "", ""⟩⟩).1
      (by decide)⟩,
   ⟨⟨by decide, by decide, by decide, by decide⟩,
    (register_skip_and_merge
      [(⟨"x", ⟨"A", "", "", "", "", "", "", "", ""⟩⟩ : DictEntry)]
      ⟨"x", ⟨"C", "B", "", "", "", "", "", "", ""⟩⟩).2
      (by decide) (by decide)
      ⟨"x", ⟨"A", "", "", "", "", "", "", "", ""⟩⟩
      (by decide) (by decide)⟩⟩

end Tinyfmt
